import Mathlib

/-!
# EOgmaNeo: the hierarchy controller (`source/eogmaneo/Hierarchy.h`)

A shallow embedding of `eogmaneo::LayerDesc` and `eogmaneo::Hierarchy`.

Conventions of the embedding.

* `int` is a 32-bit signed integer, held in an `Int`.  The only arithmetic of
  the header is the product `i * _inputTemporalHorizon` of `getPrediction`:
  `mulInt` gives it, with signed overflow (undefined in C++) as `none`;
  `wrapInt` is the value a two's-complement machine leaves instead.
* `float` is a type parameter `F` (with decimal literals, `+` and `/`): no
  property proved here depends on floating-point arithmetic.
* `std::vector<T>` is `List T`; `v[i]` with `i` out of range, and `front()` of
  an empty vector, are undefined in C++ and are the `none` result here.
* `Layer` is declared in `Layer.h`, which is not part of the sources at hand:
  the weights are a type parameter `W`.  The bodies of `Hierarchy::create` and
  `Hierarchy::step` (`Hierarchy.cpp`) are not at hand either; they are modelled
  from the specification and marked so.
-/

namespace eogmaneo

/-! ## `LayerDesc` -/

/-- Parameters for a layer (`struct LayerDesc`), field by field. -/
structure LayerDesc (F : Type) where
  _width : Int
  _height : Int
  _chunkSize : Int
  _forwardRadius : Int
  _backwardRadius : Int
  _ticksPerUpdate : Int
  _temporalHorizon : Int
  _alpha : F
  _beta : F
  _delta : F
  _gamma : F
  _traceCutoff : F
  _epsilon : F

set_option linter.dupNamespace false in
/-- The default constructor `LayerDesc::LayerDesc()` with its initializer list. -/
def LayerDesc.LayerDesc {F : Type} [OfScientific F] : eogmaneo.LayerDesc F where
  _width := 36
  _height := 36
  _chunkSize := 6
  _forwardRadius := 9
  _backwardRadius := 9
  _ticksPerUpdate := 2
  _temporalHorizon := 2
  _alpha := 0.01
  _beta := 0.05
  _delta := 0.0
  _gamma := 0.99
  _traceCutoff := 0.01
  _epsilon := 0.01

/-! ## `Layer` and `Hierarchy` -/

/-- Modelled from the spec: `Layer.h` is missing.  A layer owns its weight
matrices and eligibility traces (kept abstract in `weights`), its current hidden
code, and `_predictions`, the only member the header reads.  The header
addresses `_predictions` by an `int` (`Hierarchy.h:161-163`), so the vector is
taken to hold no more entries than an `int` can address from 0: at most
`2^31`. -/
structure Layer (W : Type) where
  weights : W
  hiddenCode : List Int
  _predictions : List (List Int)
  predictionsAddressable : _predictions.length ≤ 2 ^ 31

/-- The private members of `class Hierarchy`, in declaration order. -/
structure Hierarchy (W F : Type) where
  _layers : List (Layer W)
  _histories : List (List (List Int))
  _alphas : List F
  _betas : List F
  _deltas : List F
  _gammas : List F
  _traceCutoffs : List F
  _epsilons : List F
  _rewardSums : List F
  _rewardCounts : List F
  _ticks : List Int
  _ticksPerUpdate : List Int
  _inputTemporalHorizon : Int
  _numInputs : Int

/-- The least value of an `int`. -/
def INT_MIN : Int := -2 ^ 31

/-- The greatest value of an `int`. -/
def INT_MAX : Int := 2 ^ 31 - 1

/-- The integer `z` is a value of the type `int`. -/
def fitsInt (z : Int) : Prop :=
  INT_MIN ≤ z ∧ z ≤ INT_MAX

instance (z : Int) : Decidable (fitsInt z) :=
  inferInstanceAs (Decidable (_ ∧ _))

/-- The product `a * b` of two `int`s: its value when that is an `int`, and
`none` on signed overflow, which C++ leaves undefined. -/
def mulInt (a b : Int) : Option Int :=
  if fitsInt (a * b) then some (a * b) else none

/-- The `int` a two's-complement machine leaves where the exact result is `z`:
`z` reduced modulo `2^32` into `[-2^31, 2^31)`. -/
def wrapInt (z : Int) : Int :=
  (z + 2 ^ 31) % 2 ^ 32 - 2 ^ 31

/-- The subscript `v[i]` of a `std::vector` by an `int`: defined only when
`0 ≤ i < v.size()`. -/
def subscript {α : Type} (v : List α) (i : Int) : Option α :=
  if i < 0 then none else v[i.toNat]?

section Queries

variable {W F : Type}

/-- Member `int getNumLayers() const`. -/
def Hierarchy.getNumLayers (h : Hierarchy W F) : Int :=
  (h._layers.length : Int)

/-- The local `int index = i * _inputTemporalHorizon` of `getPrediction`: a
product of two `int`s, `none` where it overflows. -/
def Hierarchy.predictionIndex (h : Hierarchy W F) (i : Int) : Option Int :=
  mulInt i h._inputTemporalHorizon

/-- Member `const std::vector<int> &getPrediction(int i) const`:
`int index = i * _inputTemporalHorizon; return _layers.front()._predictions[index];`. -/
def Hierarchy.getPrediction (h : Hierarchy W F) (i : Int) : Option (List Int) :=
  match h.predictionIndex i with
  | none => none
  | some index =>
    match h._layers.head? with
    | none => none
    | some front => subscript front._predictions index

/-- Member `float getAlpha(int l) const`. -/
def Hierarchy.getAlpha (h : Hierarchy W F) (l : Int) : Option F :=
  subscript h._alphas l

/-- Member `float getBeta(int l) const`. -/
def Hierarchy.getBeta (h : Hierarchy W F) (l : Int) : Option F :=
  subscript h._betas l

/-- Member `float getDelta(int l) const`. -/
def Hierarchy.getDelta (h : Hierarchy W F) (l : Int) : Option F :=
  subscript h._deltas l

/-- Member `float getGamma(int l) const`. -/
def Hierarchy.getGamma (h : Hierarchy W F) (l : Int) : Option F :=
  subscript h._gammas l

/-- Member `float getEpsilon(int l) const`. -/
def Hierarchy.getEpsilon (h : Hierarchy W F) (l : Int) : Option F :=
  subscript h._epsilons l

/-- Member `int getTicks(int l) const`. -/
def Hierarchy.getTicks (h : Hierarchy W F) (l : Int) : Option Int :=
  subscript h._ticks l

/-- Member `const std::vector<std::vector<int> > getHistories(int l)`: a copy of
`_histories[l]`. -/
def Hierarchy.getHistories (h : Hierarchy W F) (l : Int) : Option (List (List Int)) :=
  subscript h._histories l

/-- Member `const Layer &getLayer(int l) const`. -/
def Hierarchy.getLayer (h : Hierarchy W F) (l : Int) : Option (Layer W) :=
  subscript h._layers l

/-- The ten query members of the class, with their arguments. -/
inductive Query where
  | getNumLayers
  | getPrediction (i : Int)
  | getAlpha (l : Int)
  | getBeta (l : Int)
  | getDelta (l : Int)
  | getGamma (l : Int)
  | getEpsilon (l : Int)
  | getTicks (l : Int)
  | getHistories (l : Int)
  | getLayer (l : Int)

/-- What a query hands back, by C++ return type. -/
inductive QueryResult (W F : Type) where
  | int (n : Int)
  | code (v : List Int)
  | float (x : F)
  | histories (hs : List (List Int))
  | layer (l : Layer W)

/-- A query as a member call on the object: the value handed back (`none` where
the C++ is undefined) together with the object after the call.  None of the
bodies assigns a member, so the object comes back as it went in. -/
def Hierarchy.call (h : Hierarchy W F) : Query → Option (QueryResult W F) × Hierarchy W F
  | .getNumLayers => (some (.int h.getNumLayers), h)
  | .getPrediction i => ((h.getPrediction i).map .code, h)
  | .getAlpha l => ((h.getAlpha l).map .float, h)
  | .getBeta l => ((h.getBeta l).map .float, h)
  | .getDelta l => ((h.getDelta l).map .float, h)
  | .getGamma l => ((h.getGamma l).map .float, h)
  | .getEpsilon l => ((h.getEpsilon l).map .float, h)
  | .getTicks l => ((h.getTicks l).map .int, h)
  | .getHistories l => ((h.getHistories l).map .histories, h)
  | .getLayer l => ((h.getLayer l).map .layer, h)

end Queries

/-- Modelled from the spec: the position of a prediction inside a layer's
`predictions`, "indexed `stream*temporalHorizon + offset`". -/
def predictionSlot (temporalHorizon stream offset : Int) : Int :=
  stream * temporalHorizon + offset

/-- Position `p` lies in the block `[stream*H, (stream+1)*H)` that the layout
gives to one stream. -/
def inStreamBlock (temporalHorizon stream p : Int) : Prop :=
  stream * temporalHorizon ≤ p ∧ p < (stream + 1) * temporalHorizon

instance (temporalHorizon stream p : Int) : Decidable (inStreamBlock temporalHorizon stream p) :=
  inferInstanceAs (Decidable (_ ∧ _))

/-! ## The layer engine (`Layer.h`, `ComputeSystem.h`: not at hand) -/

/-- The six rates of one layer, as the hierarchy keeps them per layer. -/
structure LayerParams (F : Type) where
  alpha : F
  beta : F
  delta : F
  gamma : F
  traceCutoff : F
  epsilon : F

/-- Modelled from the spec: the collaborators of the hierarchy that are missing
from the sources, as parameters.  `G` is the state of the "single deterministic
random generator seeded from `seed`", `C` the execution provider.
`createLayer g sizes chunkSizes predict desc` allocates and randomly initialises
one layer over the inputs below it; `cycle cs learn reward params history layer`
is the encode-decode-learn cycle of a due layer ("using its current history
window, its accumulated mean reward, and `learn`"). -/
structure LayerEngine (W C G F : Type) where
  seedGenerator : Nat → G
  createLayer : G → List (Int × Int) → List Int → List Bool → LayerDesc F → Layer W × G
  cycle : C → Bool → F → LayerParams F → List (List Int) → Layer W → Layer W

/-! ## `create` (body not at hand) -/

/-- Modelled from the spec: the ConfigurationError of `create`, "mismatched
argument lengths, or `temporalHorizon < ticksPerUpdate`". -/
inductive ConfigurationError where
  | mismatchedLengths
  | horizonBelowTicks
  deriving DecidableEq, Repr

/-- Modelled from the spec: the number of chunks of a `width × height` extent
cut into chunks of side `chunkSize` (one integer per chunk in a sparse chunk
vector). -/
def numChunks (size : Int × Int) (chunkSize : Int) : Nat :=
  (Int.tdiv size.1 chunkSize * Int.tdiv size.2 chunkSize).toNat

/-- Modelled from the spec: one zero-filled ring buffer of `temporalHorizon`
sparse chunk vectors per stream below, laid out like `predictions`
(`stream*temporalHorizon + offset`). -/
def zeroHistory (temporalHorizon : Int) (below : List ((Int × Int) × Int)) : List (List Int) :=
  (below.map fun sc => List.replicate temporalHorizon.toNat
    (List.replicate (numChunks sc.1 sc.2) (0 : Int))).flatten

/-- Modelled from the spec: "histories start as zero-filled ring buffers of
length `temporalHorizon`"; layer 0 sits over the input streams, every other
layer over the single hidden code of the layer below. -/
def initialHistories {F : Type} :
    List ((Int × Int) × Int) → List (LayerDesc F) → List (List (List Int))
  | _, [] => []
  | below, d :: ds =>
    zeroHistory d._temporalHorizon below ::
      initialHistories [((d._width, d._height), d._chunkSize)] ds

/-- Modelled from the spec: "allocates one Layer per entry in `layerDescs`",
each over the layer or inputs below, all from the one generator. -/
def createLayers {W C G F : Type} (eng : LayerEngine W C G F) :
    G → List (Int × Int) → List Int → List Bool → List (LayerDesc F) → List (Layer W)
  | _, _, _, _, [] => []
  | g, sizes, chunkSizes, predict, d :: ds =>
    let made := eng.createLayer g sizes chunkSizes predict d
    made.1 :: createLayers eng made.2 [(d._width, d._height)] [d._chunkSize] [true] ds

/-- Modelled from the spec: the state `create` builds once its arguments are
accepted.  One layer, one history, one set of rates, one reward accumulator and
one tick counter per entry of `layerDescs`; "all tick counters and reward
accumulators start at zero"; `inputTemporalHorizon` is the horizon of layer 0,
the layer that predicts the inputs. -/
def Hierarchy.allocate {W C G F : Type} [OfScientific F] (eng : LayerEngine W C G F)
    (inputSizes : List (Int × Int)) (inputChunkSizes : List Int)
    (predictInputs : List Bool) (layerDescs : List (LayerDesc F)) (seed : Nat) :
    Hierarchy W F :=
  { _layers := createLayers eng (eng.seedGenerator seed) inputSizes inputChunkSizes
      predictInputs layerDescs
    _histories := initialHistories (inputSizes.zip inputChunkSizes) layerDescs
    _alphas := layerDescs.map (·._alpha)
    _betas := layerDescs.map (·._beta)
    _deltas := layerDescs.map (·._delta)
    _gammas := layerDescs.map (·._gamma)
    _traceCutoffs := layerDescs.map (·._traceCutoff)
    _epsilons := layerDescs.map (·._epsilon)
    _rewardSums := layerDescs.map fun _ => 0.0
    _rewardCounts := layerDescs.map fun _ => 0.0
    _ticks := layerDescs.map fun _ => 0
    _ticksPerUpdate := layerDescs.map (·._ticksPerUpdate)
    _inputTemporalHorizon := (layerDescs.head?.map (·._temporalHorizon)).getD 0
    _numInputs := (inputSizes.length : Int) }

/-- Modelled from the spec: `Hierarchy::create` (declared in the header, body
missing).  A member call on `h`: it hands back the outcome and the object after
the call.  It "requires `inputSizes.length == inputChunkSizes.length ==
predictInputs.length`; fails with ConfigurationError otherwise, or if any
LayerDesc violates temporalHorizon ≥ ticksPerUpdate", "before any mutation". -/
def Hierarchy.create {W C G F : Type} [OfScientific F] (eng : LayerEngine W C G F)
    (h : Hierarchy W F) (inputSizes : List (Int × Int)) (inputChunkSizes : List Int)
    (predictInputs : List Bool) (layerDescs : List (LayerDesc F)) (seed : Nat) :
    Except ConfigurationError Unit × Hierarchy W F :=
  if ¬ (inputSizes.length = inputChunkSizes.length ∧
        inputChunkSizes.length = predictInputs.length) then
    (.error .mismatchedLengths, h)
  else if layerDescs.any (fun d => decide (d._temporalHorizon < d._ticksPerUpdate)) then
    (.error .horizonBelowTicks, h)
  else
    (.ok (), Hierarchy.allocate eng inputSizes inputChunkSizes predictInputs layerDescs seed)

/-! ## `step` (body not at hand) -/

/-- Modelled from the spec: a push into a fixed-length FIFO history, "evicting
the oldest entry"; the newest entry is at the front. -/
def pushHistory (x : List Int) (hist : List (List Int)) : List (List Int) :=
  (x :: hist).dropLast

/-- Modelled from the spec: "each element of `inputs` is pushed into layer 0's
per-stream history"; stream `s` owns the block of `temporalHorizon` entries
starting at `s*temporalHorizon`. -/
def pushStreams (temporalHorizon : Nat) : List (List Int) → List (List Int) → List (List Int)
  | [], hist => hist
  | x :: xs, hist =>
    pushHistory x (hist.take temporalHorizon) ++
      pushStreams temporalHorizon xs (hist.drop temporalHorizon)

/-- Modelled from the spec: what a due layer `l` does.  Its tick counter "resets
to zero"; "it runs its encode-decode-learn cycle using its current history
window, its accumulated mean reward (sum/count, then both reset to zero), and
`learn`", and "its hidden code is pushed into the next layer's history".  (The
`getD` defaults are never read in a state built by `create`: all per-layer lists
have one entry per layer.) -/
def Hierarchy.fire {W C G F : Type} [OfScientific F] [Div F] (eng : LayerEngine W C G F)
    (cs : C) (learn : Bool) (l : Nat) (layer : Layer W) (h : Hierarchy W F) : Hierarchy W F :=
  let reward := h._rewardSums.getD l 0.0 / h._rewardCounts.getD l 0.0
  let params : LayerParams F :=
    { alpha := h._alphas.getD l 0.0
      beta := h._betas.getD l 0.0
      delta := h._deltas.getD l 0.0
      gamma := h._gammas.getD l 0.0
      traceCutoff := h._traceCutoffs.getD l 0.0
      epsilon := h._epsilons.getD l 0.0 }
  let fired := eng.cycle cs learn reward params (h._histories.getD l []) layer
  { h with
    _layers := h._layers.set l fired
    _histories := h._histories.set (l + 1)
      (pushHistory fired.hiddenCode (h._histories.getD (l + 1) []))
    _rewardSums := h._rewardSums.set l 0.0
    _rewardCounts := h._rewardCounts.set l 0.0
    _ticks := h._ticks.set l 0 }

/-- Modelled from the spec: step 3 of `step`, from layer `l` upwards with
`remaining` layers left.  "Layers are visited bottom-up.  Each layer's tick
counter is incremented; when it reaches `ticksPerUpdate`, it resets to zero and
the layer is due [...].  If due, [...] processing continues to that next layer.
If not due, this call's processing stops here - layers above are not evaluated
this call."  The second component tells, layer by layer from `l`, which layers
were due. -/
def Hierarchy.visit {W C G F : Type} [OfScientific F] [Div F] (eng : LayerEngine W C G F)
    (cs : C) (learn : Bool) : Nat → Nat → Hierarchy W F → Hierarchy W F × List Bool
  | 0, _, h => (h, [])
  | remaining + 1, l, h =>
    match h._layers[l]? with
    | none => (h, List.replicate (remaining + 1) false)
    | some layer =>
      let ticked := h._ticks.getD l 0 + 1
      if h._ticksPerUpdate.getD l 0 ≤ ticked then
        let above := Hierarchy.visit eng cs learn remaining (l + 1)
          (h.fire eng cs learn l layer)
        (above.1, true :: above.2)
      else
        ({ h with _ticks := h._ticks.set l ticked }, List.replicate (remaining + 1) false)

/-- Modelled from the spec: `Hierarchy::step` with all four arguments, together
with the record of which layers were due during the call.  Step 1 pushes the
inputs into layer 0's history, step 2 accumulates the reward ("sum += reward,
count += 1") into every layer's accumulator, step 3 visits the layers
bottom-up. -/
def Hierarchy.stepTrace {W C G F : Type} [OfScientific F] [Add F] [Div F]
    (eng : LayerEngine W C G F) (h : Hierarchy W F) (inputs : List (List Int)) (cs : C)
    (learn : Bool) (reward : F) : Hierarchy W F × List Bool :=
  let pushed : Hierarchy W F :=
    { h with
      _histories := h._histories.set 0
        (pushStreams h._inputTemporalHorizon.toNat inputs (h._histories.getD 0 [])) }
  let accumulated : Hierarchy W F :=
    { pushed with
      _rewardSums := pushed._rewardSums.map (· + reward)
      _rewardCounts := pushed._rewardCounts.map (· + 1.0) }
  Hierarchy.visit eng cs learn accumulated._layers.length 0 accumulated

/-- Modelled from the spec: `void Hierarchy::step(inputs, cs, learn, reward)`,
"in-place mutation, no return value": the unit value and the object after the
call. -/
def Hierarchy.step {W C G F : Type} [OfScientific F] [Add F] [Div F]
    (eng : LayerEngine W C G F) (h : Hierarchy W F) (inputs : List (List Int)) (cs : C)
    (learn : Bool) (reward : F) : Unit × Hierarchy W F :=
  ((), (h.stepTrace eng inputs cs learn reward).1)

/-- The three ways the declaration
`void step(inputs, cs, bool learn = true, float reward = 0.0f)` can be called:
trailing arguments may be left out. -/
inductive StepArgs (C F : Type) where
  | two (inputs : List (List Int)) (cs : C)
  | three (inputs : List (List Int)) (cs : C) (learn : Bool)
  | four (inputs : List (List Int)) (cs : C) (learn : Bool) (reward : F)

/-- A call of `step` with its arguments in full. -/
structure StepCall (C F : Type) where
  inputs : List (List Int)
  cs : C
  learn : Bool
  reward : F

/-- The default arguments of the declaration, `learn = true` and
`reward = 0.0f`, filled in for the arguments a call leaves out. -/
def StepArgs.resolve {C F : Type} [OfScientific F] : StepArgs C F → StepCall C F
  | .two inputs cs => { inputs := inputs, cs := cs, learn := true, reward := 0.0 }
  | .three inputs cs learn => { inputs := inputs, cs := cs, learn := learn, reward := 0.0 }
  | .four inputs cs learn reward =>
    { inputs := inputs, cs := cs, learn := learn, reward := reward }

/-- A call of `step` as written at the call site. -/
def Hierarchy.stepCall {W C G F : Type} [OfScientific F] [Add F] [Div F]
    (eng : LayerEngine W C G F) (h : Hierarchy W F) (args : StepArgs C F) :
    Unit × Hierarchy W F :=
  let c := args.resolve
  h.step eng c.inputs c.cs c.learn c.reward

/-- The object after a sequence of `step` calls, first call first. -/
def Hierarchy.run {W C G F : Type} [OfScientific F] [Add F] [Div F]
    (eng : LayerEngine W C G F) (h : Hierarchy W F) (calls : List (StepCall C F)) :
    Hierarchy W F :=
  calls.foldl (fun s c => (s.step eng c.inputs c.cs c.learn c.reward).2) h

/-- Layer `l` is due during the `n`-th call (`n = 1` is the first) of a sequence
of `step` calls started on `h`. -/
def Hierarchy.dueDuring {W C G F : Type} [OfScientific F] [Add F] [Div F]
    (eng : LayerEngine W C G F) (h : Hierarchy W F) (calls : List (StepCall C F))
    (n l : Nat) : Bool :=
  match n with
  | 0 => false
  | m + 1 =>
    match calls[m]? with
    | none => false
    | some c =>
      (((h.run eng (calls.take m)).stepTrace eng c.inputs c.cs c.learn c.reward).2).getD l false

/-- The slice of a layer's history that belongs to stream `s`. -/
def streamHistory (temporalHorizon s : Nat) (hist : List (List Int)) : List (List Int) :=
  (hist.drop (s * temporalHorizon)).take temporalHorizon

/-- The number of streams a layer's history holds: the input streams for layer
0, the one hidden code of the layer below otherwise. -/
def streamsOf (numInputs : Nat) : Nat → Nat
  | 0 => numInputs
  | _ + 1 => 1

/-- A trivial engine, for evaluating the controller on concrete inputs: layers
carry no weights and a cycle leaves the layer as it is. -/
def unitEngine : LayerEngine Unit Unit Unit ℚ where
  seedGenerator := fun _ => ()
  createLayer := fun _ _ _ _ _ => (⟨(), [], [], Nat.zero_le _⟩, ())
  cycle := fun _ _ _ _ _ layer => layer

/-- A state without layers: every vector empty, both `int` members 0. -/
def Hierarchy.empty {W F : Type} : Hierarchy W F :=
  { _layers := [], _histories := [], _alphas := [], _betas := [], _deltas := [],
    _gammas := [], _traceCutoffs := [], _epsilons := [], _rewardSums := [],
    _rewardCounts := [], _ticks := [], _ticksPerUpdate := [],
    _inputTemporalHorizon := 0, _numInputs := 0 }

/-- A one-layer object over two input streams with horizon 2, whose layer 0
holds four predictions. -/
def sampleHierarchy : Hierarchy Unit ℚ :=
  { (Hierarchy.empty : Hierarchy Unit ℚ) with
    _layers := [⟨(), [], [[1], [2], [3], [4]], by decide⟩]
    _ticks := [0]
    _ticksPerUpdate := [1]
    _inputTemporalHorizon := 2
    _numInputs := 2 }

/-- The same layer 0 and horizon as `sampleHierarchy`, every other member
different. -/
def otherHierarchy : Hierarchy Unit ℚ :=
  { (Hierarchy.empty : Hierarchy Unit ℚ) with
    _layers := [⟨(), [5], [[1], [2], [3], [4]], by decide⟩, ⟨(), [], [], by decide⟩]
    _histories := [[[0]], [[0]]]
    _ticks := [0, 1]
    _ticksPerUpdate := [1, 2]
    _inputTemporalHorizon := 2
    _numInputs := 7 }

/-- The clock gate of `Hierarchy.visit` on its own: what a visit from layer `l`
with `remaining` layers left does to the tick counters, and which layers it
finds due (`visit_clock` shows that `visit` agrees with it). -/
def clock : Nat → Nat → List Int → List Int → List Int × List Bool
  | 0, _, _, ticks => (ticks, [])
  | remaining + 1, l, ticksPerUpdate, ticks =>
    let ticked := ticks.getD l 0 + 1
    if ticksPerUpdate.getD l 0 ≤ ticked then
      let above := clock remaining (l + 1) ticksPerUpdate (ticks.set l 0)
      (above.1, true :: above.2)
    else
      (ticks.set l ticked, List.replicate (remaining + 1) false)

/-- A descriptor with the given clock divisor and horizon (all other fields as
in the default constructor). -/
def descWith (ticksPerUpdate temporalHorizon : Int) : LayerDesc ℚ :=
  { (LayerDesc.LayerDesc : LayerDesc ℚ) with
    _ticksPerUpdate := ticksPerUpdate, _temporalHorizon := temporalHorizon }

/-- A `step` call with one input stream, learning on, reward 0. -/
def sampleCall : StepCall Unit ℚ :=
  { inputs := [[1, 0, 1, 0]], cs := (), learn := true, reward := 0 }

/-- A `step` call with two input streams, learning on, reward 0. -/
def twoStreamCall : StepCall Unit ℚ :=
  { inputs := [[1, 0, 1, 0], [3, 2, 1, 0]], cs := (), learn := true, reward := 0 }

/-- A state whose `_inputTemporalHorizon` is 65536 (one empty layer). -/
def wideHierarchy : Hierarchy Unit ℚ :=
  { (Hierarchy.empty : Hierarchy Unit ℚ) with
    _layers := [⟨(), [], [], by decide⟩]
    _inputTemporalHorizon := 65536
    _numInputs := 1 }

/-- A state whose `_inputTemporalHorizon` is 0 (one empty layer). -/
def zeroHorizonHierarchy : Hierarchy Unit ℚ :=
  { (Hierarchy.empty : Hierarchy Unit ℚ) with
    _layers := [⟨(), [], [], by decide⟩]
    _inputTemporalHorizon := 0
    _numInputs := 3 }

/-- Modelled from the spec: the LayerDesc invariants of the data model,
"ticksPerUpdate ≥ 1; temporalHorizon ≥ ticksPerUpdate". -/
def LayerDesc.Valid {F : Type} (d : eogmaneo.LayerDesc F) : Prop :=
  1 ≤ d._ticksPerUpdate ∧ d._ticksPerUpdate ≤ d._temporalHorizon

/-- Every counter is non-negative, and below its divisor where the divisor is
at least 1. -/
def TicksInRange (tpu ticks : List Int) : Prop :=
  ∀ j : Nat, 0 ≤ ticks.getD j 0 ∧ (1 ≤ tpu.getD j 0 → ticks.getD j 0 < tpu.getD j 0)

/-! ## Reads by an `int` subscript -/

section QueryFacts

variable {W F : Type}

theorem subscript_eq_some_iff {α : Type} (v : List α) (i : Int) (x : α) :
    subscript v i = some x ↔ ∃ p : Nat, (p : Int) = i ∧ v[p]? = some x := by
  unfold subscript
  constructor
  · intro hx
    by_cases hi : i < 0
    · simp [hi] at hx
    · rw [if_neg hi] at hx
      exact ⟨i.toNat, Int.toNat_of_nonneg (not_lt.mp hi), hx⟩
  · rintro ⟨p, rfl, hp⟩
    have : ¬ ((p : Int) < 0) := by omega
    rw [if_neg this]
    simpa using hp

theorem subscript_isSome_of_lt {α : Type} (v : List α) (i : Int) (h0 : 0 ≤ i)
    (h1 : i < (v.length : Int)) : (subscript v i).isSome = true := by
  unfold subscript
  have hn : ¬ (i < 0) := not_lt.mpr h0
  rw [if_neg hn]
  have hlt : i.toNat < v.length := by omega
  simp [List.getElem?_eq_getElem hlt]

/-- A defined read of a vector of at most `2^31` elements has a subscript that
fits a 32-bit `int`. -/
theorem subscript_fits_int {α : Type} (v : List α) (i : Int) (x : α)
    (hx : subscript v i = some x) (hlen : v.length ≤ 2 ^ 31) :
    -(2 : Int) ^ 31 ≤ i ∧ i < (2 : Int) ^ 31 := by
  obtain ⟨p, rfl, hp⟩ := (subscript_eq_some_iff v i x).mp hx
  have hlt : p < v.length := by
    by_contra hge
    rw [List.getElem?_eq_none (not_lt.mp hge)] at hp
    exact Option.noConfusion hp
  have h2 : ((2 : Nat) ^ 31 : Int) = (2 : Int) ^ 31 := by norm_num
  constructor
  · have : (0 : Int) ≤ (p : Int) := Int.ofNat_nonneg p
    have h3 : -(2 : Int) ^ 31 ≤ 0 := by norm_num
    omega
  · have : (p : Int) < ((2 : Nat) ^ 31 : Nat) := by exact_mod_cast lt_of_lt_of_le hlt hlen
    simpa using this

theorem mulInt_eq_some_iff (a b z : Int) :
    mulInt a b = some z ↔ fitsInt (a * b) ∧ z = a * b := by
  unfold mulInt
  by_cases hf : fitsInt (a * b)
  · rw [if_pos hf]
    simp [hf, eq_comm]
  · rw [if_neg hf]
    simp [hf]

/-- Where the product is an `int`, a two's-complement machine computes it too. -/
theorem wrapInt_of_fitsInt (z : Int) (hz : fitsInt z) : wrapInt z = z := by
  unfold fitsInt INT_MIN INT_MAX at hz
  unfold wrapInt
  omega

/-- With a layer 0, `getPrediction` is the read of its predictions at the exact
product: a product that overflows addresses no stored prediction. -/
theorem getPrediction_of_head (h : Hierarchy W F) (i : Int) (front : Layer W)
    (hf : h._layers.head? = some front) :
    h.getPrediction i = subscript front._predictions (i * h._inputTemporalHorizon) := by
  unfold Hierarchy.getPrediction Hierarchy.predictionIndex mulInt
  by_cases hfit : fitsInt (i * h._inputTemporalHorizon)
  · rw [if_pos hfit]
    simp only [hf]
  · rw [if_neg hfit]
    cases hs : subscript front._predictions (i * h._inputTemporalHorizon) with
    | none => rfl
    | some v =>
      exfalso
      have hr := subscript_fits_int _ _ v hs front.predictionsAddressable
      apply hfit
      unfold fitsInt INT_MIN INT_MAX
      omega

theorem getPrediction_of_head_none (h : Hierarchy W F) (i : Int)
    (hf : h._layers.head? = none) : h.getPrediction i = none := by
  unfold Hierarchy.getPrediction
  cases h.predictionIndex i with
  | none => rfl
  | some index => simp only [hf]

/-- C1: for every hierarchy state and every stream index `i`, `getPrediction(i)`
hands back exactly the element of layer 0's `predictions` at position
`i * inputTemporalHorizon`, the offset-0 slot of stream `i` (it is defined
exactly when there is a layer 0 and that position exists), and no other part of
the state influences the result: two states with the same layer-0 predictions
and the same `inputTemporalHorizon` answer alike. -/
theorem getPrediction_reads_offset_zero_slot (h : Hierarchy W F) (i : Int) :
    (∀ v : List Int, h.getPrediction i = some v ↔
      ∃ (front : Layer W) (rest : List (Layer W)) (p : Nat),
        h._layers = front :: rest ∧
        (p : Int) = i * h._inputTemporalHorizon ∧
        (p : Int) = predictionSlot h._inputTemporalHorizon i 0 ∧
        front._predictions[p]? = some v) ∧
    (∀ h' : Hierarchy W F,
      h'._layers.head?.map (·._predictions) = h._layers.head?.map (·._predictions) →
      h'._inputTemporalHorizon = h._inputTemporalHorizon →
      h'.getPrediction i = h.getPrediction i) := by
  constructor
  · intro v
    cases hl : h._layers with
    | nil =>
      rw [getPrediction_of_head_none h i (by rw [hl]; rfl)]
      simp
    | cons front rest =>
      rw [getPrediction_of_head h i front (by rw [hl]; rfl)]
      unfold predictionSlot
      simp only [subscript_eq_some_iff, add_zero]
      constructor
      · rintro ⟨p, hp, hv⟩
        exact ⟨front, rest, p, rfl, hp, hp, hv⟩
      · rintro ⟨front', rest', p, hcons, hp, -, hv⟩
        obtain ⟨rfl, -⟩ := List.cons.inj hcons
        exact ⟨p, hp, hv⟩
  · intro h' hsame hH
    cases hl : h._layers.head? with
    | none =>
      rw [hl] at hsame
      cases hl' : h'._layers.head? with
      | none => rw [getPrediction_of_head_none h i hl, getPrediction_of_head_none h' i hl']
      | some f' => rw [hl'] at hsame; simp at hsame
    | some f =>
      rw [hl] at hsame
      cases hl' : h'._layers.head? with
      | none => rw [hl'] at hsame; simp at hsame
      | some f' =>
        rw [hl'] at hsame
        simp only [Option.map_some', Option.some.injEq] at hsame
        rw [getPrediction_of_head h i f hl, getPrediction_of_head h' i f' hl', hsame, hH]

theorem getPrediction_reads_offset_zero_slot_witness :
    sampleHierarchy.getPrediction 1 = some [3] ∧
    otherHierarchy.getPrediction 1 = sampleHierarchy.getPrediction 1 :=
  ⟨((getPrediction_reads_offset_zero_slot sampleHierarchy 1).1 [3]).mpr
      ⟨⟨(), [], [[1], [2], [3], [4]], by decide⟩, [], 2, rfl, by decide, by decide, rfl⟩,
    (getPrediction_reads_offset_zero_slot sampleHierarchy 1).2 otherHierarchy rfl rfl⟩

/-- C9: `getPrediction(i)` is in bounds (the embedding returns a value) whenever
the hierarchy has at least one layer, `inputTemporalHorizon ≥ 1`,
`0 ≤ i < numInputs`, and layer 0's `predictions` has length
`numInputs * inputTemporalHorizon`; and it is the error branch whenever the
layer list is empty. -/
theorem getPrediction_in_bounds (h : Hierarchy W F) (i : Int) :
    (∀ front : Layer W, h._layers.head? = some front →
      1 ≤ h._inputTemporalHorizon → 0 ≤ i → i < h._numInputs →
      (front._predictions.length : Int) = h._numInputs * h._inputTemporalHorizon →
      (h.getPrediction i).isSome = true) ∧
    (h._layers = [] → h.getPrediction i = none) := by
  constructor
  · intro front hf hH h0 hi hlen
    rw [getPrediction_of_head h i front hf]
    apply subscript_isSome_of_lt
    · exact mul_nonneg h0 (by omega)
    · rw [hlen]
      have hpos : (0 : Int) < h._inputTemporalHorizon := by omega
      exact mul_lt_mul_of_pos_right hi hpos
  · intro hnil
    exact getPrediction_of_head_none h i (by rw [hnil]; rfl)

theorem getPrediction_in_bounds_witness :
    (sampleHierarchy.getPrediction 1).isSome = true ∧
    ((Hierarchy.empty : Hierarchy Unit ℚ).getPrediction 1 = none) :=
  ⟨(getPrediction_in_bounds sampleHierarchy 1).1 ⟨(), [], [[1], [2], [3], [4]], by decide⟩ rfl
      (by decide) (by decide) (by decide) (by decide),
    (getPrediction_in_bounds (Hierarchy.empty : Hierarchy Unit ℚ) 1).2 rfl⟩

/-- C7: every query operation (`getNumLayers`, `getPrediction`, `getAlpha`,
`getBeta`, `getDelta`, `getGamma`, `getEpsilon`, `getTicks`, `getHistories`,
`getLayer`) leaves the hierarchy as it was: layers, histories, parameter lists,
reward accumulators, ticks, ticksPerUpdate, inputTemporalHorizon and numInputs
are the same after the call as before. -/
theorem query_leaves_state_unchanged (h : Hierarchy W F) (q : Query) :
    (h.call q).2 = h ∧
    (h.call q).2._layers = h._layers ∧
    (h.call q).2._histories = h._histories ∧
    (h.call q).2._alphas = h._alphas ∧
    (h.call q).2._betas = h._betas ∧
    (h.call q).2._deltas = h._deltas ∧
    (h.call q).2._gammas = h._gammas ∧
    (h.call q).2._traceCutoffs = h._traceCutoffs ∧
    (h.call q).2._epsilons = h._epsilons ∧
    (h.call q).2._rewardSums = h._rewardSums ∧
    (h.call q).2._rewardCounts = h._rewardCounts ∧
    (h.call q).2._ticks = h._ticks ∧
    (h.call q).2._ticksPerUpdate = h._ticksPerUpdate ∧
    (h.call q).2._inputTemporalHorizon = h._inputTemporalHorizon ∧
    (h.call q).2._numInputs = h._numInputs := by
  have hq : (h.call q).2 = h := by
    cases q <;> rfl
  rw [hq]
  simp

end QueryFacts

/-! ## The clock gate and the histories under `step` -/

section StepFacts

variable {W C G F : Type} [OfScientific F] [Div F]

theorem length_pushHistory (x : List Int) (hist : List (List Int)) :
    (pushHistory x hist).length = hist.length := by
  simp [pushHistory]

theorem length_pushStreams (H : Nat) (inputs : List (List Int)) (hist : List (List Int)) :
    (pushStreams H inputs hist).length = hist.length := by
  induction inputs generalizing hist with
  | nil => rfl
  | cons x xs ih =>
    simp only [pushStreams, List.length_append, length_pushHistory, ih, List.length_take,
      List.length_drop]
    omega

theorem map_length_set_getD (hs : List (List (List Int))) (i : Nat)
    (f : List (List Int) → List (List Int)) (hf : ∀ x, (f x).length = x.length) :
    (hs.set i (f (hs.getD i []))).map List.length = hs.map List.length := by
  apply List.ext_getElem?
  intro j
  simp only [List.getElem?_map, List.getElem?_set, List.getD_eq_getElem?_getD]
  by_cases hij : i = j
  · subst hij
    by_cases hlt : i < hs.length
    · simp [hlt, List.getElem?_eq_getElem hlt, hf]
    · simp [hlt, List.getElem?_eq_none (not_lt.mp hlt)]
  · simp [hij]

/-- A visit changes neither the divisors, nor the number of layers, nor the two
input constants, nor the length of any history. -/
theorem visit_frame (eng : LayerEngine W C G F) (cs : C) (learn : Bool) (k l : Nat)
    (h : Hierarchy W F) :
    (Hierarchy.visit eng cs learn k l h).1._ticksPerUpdate = h._ticksPerUpdate ∧
    (Hierarchy.visit eng cs learn k l h).1._layers.length = h._layers.length ∧
    (Hierarchy.visit eng cs learn k l h).1._inputTemporalHorizon = h._inputTemporalHorizon ∧
    (Hierarchy.visit eng cs learn k l h).1._numInputs = h._numInputs ∧
    (Hierarchy.visit eng cs learn k l h).1._histories.map List.length =
      h._histories.map List.length := by
  induction k generalizing l h with
  | zero => simp [Hierarchy.visit]
  | succ k ih =>
    cases hl : h._layers[l]? with
    | none => simp only [Hierarchy.visit, hl, and_self]
    | some layer =>
      simp only [Hierarchy.visit, hl]
      by_cases hdue : h._ticksPerUpdate.getD l 0 ≤ h._ticks.getD l 0 + 1
      · rw [if_pos hdue]
        obtain ⟨i1, i2, i3, i4, i5⟩ := ih (l + 1) (h.fire eng cs learn l layer)
        refine ⟨i1, ?_, i3, i4, ?_⟩
        · rw [i2]; simp [Hierarchy.fire]
        · rw [i5]
          exact map_length_set_getD h._histories (l + 1) _ (length_pushHistory _)
      · rw [if_neg hdue]
        simp only [and_self]

/-- On the tick counters, and in what it reports as due, a visit is the clock
gate. -/
theorem visit_clock (eng : LayerEngine W C G F) (cs : C) (learn : Bool) (k l : Nat)
    (h : Hierarchy W F) (hk : l + k ≤ h._layers.length) :
    (Hierarchy.visit eng cs learn k l h).1._ticks =
      (clock k l h._ticksPerUpdate h._ticks).1 ∧
    (Hierarchy.visit eng cs learn k l h).2 = (clock k l h._ticksPerUpdate h._ticks).2 := by
  induction k generalizing l h with
  | zero => simp [Hierarchy.visit, clock]
  | succ k ih =>
    have hlt : l < h._layers.length := by omega
    have hl : h._layers[l]? = some h._layers[l] := List.getElem?_eq_getElem hlt
    simp only [Hierarchy.visit, hl, clock]
    by_cases hdue : h._ticksPerUpdate.getD l 0 ≤ h._ticks.getD l 0 + 1
    · rw [if_pos hdue, if_pos hdue]
      have hrec := ih (l + 1) (h.fire eng cs learn l h._layers[l])
        (by simp only [Hierarchy.fire, List.length_set]; omega)
      exact ⟨hrec.1, by rw [hrec.2]; rfl⟩
    · rw [if_neg hdue, if_neg hdue]
      exact ⟨rfl, rfl⟩

theorem getD_replicate_false (n m : Nat) :
    (List.replicate n false).getD m false = false := by
  rw [List.getD_eq_getElem?_getD, List.getElem?_replicate]
  split <;> rfl

theorem getElem?_set_getD_self (hs : List (List (List Int))) (i : Nat)
    (f : List (List Int) → List (List Int)) :
    (hs.set i (f (hs.getD i [])))[i]? = (hs[i]?).map f := by
  rw [List.getElem?_set, if_pos rfl, List.getD_eq_getElem?_getD]
  by_cases hlt : i < hs.length
  · rw [if_pos hlt, List.getElem?_eq_getElem hlt]
    rfl
  · rw [if_neg hlt, List.getElem?_eq_none (not_lt.mp hlt)]
    rfl

/-- What a due layer `l` changes among the layers and the histories: layer `l`
becomes the layer after its cycle, and that layer's hidden code is pushed into
history `l + 1`; no other layer and no other history is touched. -/
theorem fire_effect (eng : LayerEngine W C G F) (cs : C) (learn : Bool) (l : Nat)
    (layer : Layer W) (h : Hierarchy W F) (hl : h._layers[l]? = some layer) :
    ∃ fired : Layer W,
      (h.fire eng cs learn l layer)._layers[l]? = some fired ∧
      (h.fire eng cs learn l layer)._histories[l + 1]? =
        (h._histories[l + 1]?).map (pushHistory fired.hiddenCode) ∧
      (∀ j : Nat, j ≠ l → (h.fire eng cs learn l layer)._layers[j]? = h._layers[j]?) ∧
      (∀ j : Nat, j ≠ l + 1 →
        (h.fire eng cs learn l layer)._histories[j]? = h._histories[j]?) := by
  have hlt : l < h._layers.length := by
    by_contra hge
    rw [List.getElem?_eq_none (not_lt.mp hge)] at hl
    exact Option.noConfusion hl
  refine ⟨_, ?_, getElem?_set_getD_self h._histories (l + 1) _, ?_, ?_⟩
  · show (h._layers.set l _)[l]? = _
    rw [List.getElem?_set, if_pos rfl, if_pos hlt]
  · intro j hj
    show (h._layers.set l _)[j]? = _
    rw [List.getElem?_set, if_neg (Ne.symm hj)]
  · intro j hj
    show (h._histories.set (l + 1) _)[j]? = _
    rw [List.getElem?_set, if_neg (Ne.symm hj)]

theorem visit_zero (eng : LayerEngine W C G F) (cs : C) (learn : Bool) (l : Nat)
    (h : Hierarchy W F) : Hierarchy.visit eng cs learn 0 l h = (h, []) := rfl

theorem visit_succ_none (eng : LayerEngine W C G F) (cs : C) (learn : Bool) (k l : Nat)
    (h : Hierarchy W F) (hl : h._layers[l]? = none) :
    Hierarchy.visit eng cs learn (k + 1) l h = (h, List.replicate (k + 1) false) := by
  simp only [Hierarchy.visit, hl]

theorem visit_succ_due (eng : LayerEngine W C G F) (cs : C) (learn : Bool) (k l : Nat)
    (h : Hierarchy W F) (layer : Layer W) (hl : h._layers[l]? = some layer)
    (hdue : h._ticksPerUpdate.getD l 0 ≤ h._ticks.getD l 0 + 1) :
    Hierarchy.visit eng cs learn (k + 1) l h =
      ((Hierarchy.visit eng cs learn k (l + 1) (h.fire eng cs learn l layer)).1,
        true :: (Hierarchy.visit eng cs learn k (l + 1) (h.fire eng cs learn l layer)).2) := by
  simp only [Hierarchy.visit, hl]
  rw [if_pos hdue]

theorem visit_succ_wait (eng : LayerEngine W C G F) (cs : C) (learn : Bool) (k l : Nat)
    (h : Hierarchy W F) (layer : Layer W) (hl : h._layers[l]? = some layer)
    (hdue : ¬ h._ticksPerUpdate.getD l 0 ≤ h._ticks.getD l 0 + 1) :
    Hierarchy.visit eng cs learn (k + 1) l h =
      ({ h with _ticks := h._ticks.set l (h._ticks.getD l 0 + 1) },
        List.replicate (k + 1) false) := by
  simp only [Hierarchy.visit, hl]
  rw [if_neg hdue]

/-- What a visit from layer `l` does to the histories: the histories up to `l`
and the layers below `l` are left alone; the history of layer `l + m + 1` is
left alone when layer `l + m` was not due, and receives the hidden code of
layer `l + m` (as that layer is after the visit) when it was due. -/
theorem visit_histories (eng : LayerEngine W C G F) (cs : C) (learn : Bool) (k l : Nat)
    (h : Hierarchy W F) :
    (∀ j : Nat, j ≤ l →
      (Hierarchy.visit eng cs learn k l h).1._histories[j]? = h._histories[j]?) ∧
    (∀ j : Nat, j < l →
      (Hierarchy.visit eng cs learn k l h).1._layers[j]? = h._layers[j]?) ∧
    (∀ m : Nat, m < k →
      ((Hierarchy.visit eng cs learn k l h).2.getD m false = false →
        (Hierarchy.visit eng cs learn k l h).1._histories[l + m + 1]? =
          h._histories[l + m + 1]?) ∧
      ((Hierarchy.visit eng cs learn k l h).2.getD m false = true →
        ∃ layer : Layer W,
          (Hierarchy.visit eng cs learn k l h).1._layers[l + m]? = some layer ∧
          (Hierarchy.visit eng cs learn k l h).1._histories[l + m + 1]? =
            (h._histories[l + m + 1]?).map (pushHistory layer.hiddenCode))) := by
  induction k generalizing l h with
  | zero =>
    rw [visit_zero]
    exact ⟨fun _ _ => rfl, fun _ _ => rfl, fun m hm => absurd hm (Nat.not_lt_zero m)⟩
  | succ k ih =>
    have hstop : ∀ (h' : Hierarchy W F), h'._histories = h._histories →
        h'._layers = h._layers →
        (∀ j : Nat, j ≤ l → h'._histories[j]? = h._histories[j]?) ∧
        (∀ j : Nat, j < l → h'._layers[j]? = h._layers[j]?) ∧
        (∀ m : Nat, m < k + 1 →
          ((List.replicate (k + 1) false).getD m false = false →
            h'._histories[l + m + 1]? = h._histories[l + m + 1]?) ∧
          ((List.replicate (k + 1) false).getD m false = true →
            ∃ layer : Layer W, h'._layers[l + m]? = some layer ∧
              h'._histories[l + m + 1]? =
                (h._histories[l + m + 1]?).map (pushHistory layer.hiddenCode))) := by
      intro h' e1 e2
      refine ⟨fun _ _ => by rw [e1], fun _ _ => by rw [e2], fun m _ => ⟨fun _ => by rw [e1], ?_⟩⟩
      intro hf
      rw [getD_replicate_false] at hf
      exact absurd hf (by decide)
    cases hl : h._layers[l]? with
    | none =>
      rw [visit_succ_none eng cs learn k l h hl]
      exact hstop h rfl rfl
    | some layer =>
      by_cases hdue : h._ticksPerUpdate.getD l 0 ≤ h._ticks.getD l 0 + 1
      · rw [visit_succ_due eng cs learn k l h layer hl hdue]
        obtain ⟨fired, e1, e2, e3, e4⟩ := fire_effect eng cs learn l layer h hl
        obtain ⟨b1, b2, b3⟩ := ih (l + 1) (h.fire eng cs learn l layer)
        refine ⟨?_, ?_, ?_⟩
        · intro j hj
          rw [b1 j (by omega), e4 j (by omega)]
        · intro j hj
          rw [b2 j (by omega), e3 j (by omega)]
        · intro m hm
          cases m with
          | zero =>
            refine ⟨fun hf => ?_, fun _ => ⟨fired, ?_, ?_⟩⟩
            · simp at hf
            · show (Hierarchy.visit eng cs learn k (l + 1)
                (h.fire eng cs learn l layer)).1._layers[l]? = some fired
              rw [b2 l (by omega), e1]
            · show (Hierarchy.visit eng cs learn k (l + 1)
                (h.fire eng cs learn l layer)).1._histories[l + 1]? = _
              rw [b1 (l + 1) (le_refl _), e2]
          | succ m =>
            have hidx : l + (m + 1) + 1 = l + 1 + m + 1 := by omega
            have hidx2 : l + (m + 1) = l + 1 + m := by omega
            obtain ⟨c1, c2⟩ := b3 m (by omega)
            have hsame : (h.fire eng cs learn l layer)._histories[l + 1 + m + 1]? =
                h._histories[l + 1 + m + 1]? := e4 _ (by omega)
            rw [hsame] at c1 c2
            rw [hidx, hidx2]
            exact ⟨fun hf => c1 (by simpa using hf), fun hf => c2 (by simpa using hf)⟩
      · rw [visit_succ_wait eng cs learn k l h layer hl hdue]
        exact hstop _ rfl rfl

theorem getD_set_int (ticks : List Int) (l j : Nat) (x : Int) :
    (ticks.set l x).getD j 0 = if l = j ∧ l < ticks.length then x else ticks.getD j 0 := by
  simp only [List.getD_eq_getElem?_getD, List.getElem?_set]
  by_cases hlj : l = j
  · subst hlj
    by_cases hlt : l < ticks.length
    · simp [hlt]
    · simp [hlt, List.getElem?_eq_none (not_lt.mp hlt)]
  · simp [hlj]

theorem clock_length (k l : Nat) (tpu ticks : List Int) :
    (clock k l tpu ticks).1.length = ticks.length := by
  induction k generalizing l ticks with
  | zero => rfl
  | succ k ih =>
    simp only [clock]
    split
    · rw [ih]; simp
    · simp

theorem clock_ticksInRange (k l : Nat) (tpu ticks : List Int)
    (hin : TicksInRange tpu ticks) : TicksInRange tpu (clock k l tpu ticks).1 := by
  induction k generalizing l ticks with
  | zero => exact hin
  | succ k ih =>
    simp only [clock]
    by_cases hdue : tpu.getD l 0 ≤ ticks.getD l 0 + 1
    · rw [if_pos hdue]
      apply ih
      intro j
      rw [getD_set_int]
      by_cases hc : l = j ∧ l < ticks.length
      · rw [if_pos hc]
        exact ⟨le_refl 0, fun h1 => by omega⟩
      · rw [if_neg hc]
        exact hin j
    · rw [if_neg hdue]
      intro j
      show 0 ≤ (ticks.set l (ticks.getD l 0 + 1)).getD j 0 ∧ _
      rw [getD_set_int]
      by_cases hc : l = j ∧ l < ticks.length
      · rw [if_pos hc]
        obtain ⟨rfl, -⟩ := hc
        have h0 := (hin l).1
        exact ⟨by omega, fun _ => by omega⟩
      · rw [if_neg hc]
        exact hin j

variable [Add F]

/-- One `step` call: the tick counters and the due layers are those of the clock
gate run over all layers from layer 0. -/
theorem stepTrace_clock (eng : LayerEngine W C G F) (h : Hierarchy W F)
    (inputs : List (List Int)) (cs : C) (learn : Bool) (reward : F) :
    (h.stepTrace eng inputs cs learn reward).1._ticks =
      (clock h._layers.length 0 h._ticksPerUpdate h._ticks).1 ∧
    (h.stepTrace eng inputs cs learn reward).2 =
      (clock h._layers.length 0 h._ticksPerUpdate h._ticks).2 := by
  unfold Hierarchy.stepTrace
  exact visit_clock eng cs learn _ 0 _ (by simp)

/-- One `step` call changes neither the divisors, nor the number of layers, nor
the two input constants, nor the length of any history. -/
theorem stepTrace_frame (eng : LayerEngine W C G F) (h : Hierarchy W F)
    (inputs : List (List Int)) (cs : C) (learn : Bool) (reward : F) :
    (h.stepTrace eng inputs cs learn reward).1._ticksPerUpdate = h._ticksPerUpdate ∧
    (h.stepTrace eng inputs cs learn reward).1._layers.length = h._layers.length ∧
    (h.stepTrace eng inputs cs learn reward).1._inputTemporalHorizon =
      h._inputTemporalHorizon ∧
    (h.stepTrace eng inputs cs learn reward).1._numInputs = h._numInputs ∧
    (h.stepTrace eng inputs cs learn reward).1._histories.map List.length =
      h._histories.map List.length := by
  unfold Hierarchy.stepTrace
  obtain ⟨i1, i2, i3, i4, i5⟩ := visit_frame eng cs learn h._layers.length 0
    { h with
      _histories := h._histories.set 0
        (pushStreams h._inputTemporalHorizon.toNat inputs (h._histories.getD 0 []))
      _rewardSums := h._rewardSums.map (· + reward)
      _rewardCounts := h._rewardCounts.map (· + 1.0) }
  refine ⟨i1, i2, i3, i4, ?_⟩
  rw [i5]
  exact map_length_set_getD h._histories 0 _ (length_pushStreams _ _)

/-- One `step` call on the histories: the inputs are pushed stream by stream
into the history of layer 0; the history of layer `m + 1` is left alone when
layer `m` was not due, and receives the hidden code of layer `m` when it was. -/
theorem stepTrace_histories (eng : LayerEngine W C G F) (h : Hierarchy W F)
    (inputs : List (List Int)) (cs : C) (learn : Bool) (reward : F) :
    (h.stepTrace eng inputs cs learn reward).1._histories[0]? =
      (h._histories[0]?).map (pushStreams h._inputTemporalHorizon.toNat inputs) ∧
    (∀ m : Nat, m < h._layers.length →
      ((h.stepTrace eng inputs cs learn reward).2.getD m false = false →
        (h.stepTrace eng inputs cs learn reward).1._histories[m + 1]? =
          h._histories[m + 1]?) ∧
      ((h.stepTrace eng inputs cs learn reward).2.getD m false = true →
        ∃ layer : Layer W,
          (h.stepTrace eng inputs cs learn reward).1._layers[m]? = some layer ∧
          (h.stepTrace eng inputs cs learn reward).1._histories[m + 1]? =
            (h._histories[m + 1]?).map (pushHistory layer.hiddenCode))) := by
  unfold Hierarchy.stepTrace
  obtain ⟨a1, -, a3⟩ := visit_histories eng cs learn h._layers.length 0
    { h with
      _histories := h._histories.set 0
        (pushStreams h._inputTemporalHorizon.toNat inputs (h._histories.getD 0 []))
      _rewardSums := h._rewardSums.map (· + reward)
      _rewardCounts := h._rewardCounts.map (· + 1.0) }
  constructor
  · rw [a1 0 (le_refl 0)]
    exact getElem?_set_getD_self h._histories 0 _
  · intro m hm
    obtain ⟨c1, c2⟩ := a3 m hm
    have hsame : (h._histories.set 0
        (pushStreams h._inputTemporalHorizon.toNat inputs (h._histories.getD 0 [])))[m + 1]? =
        h._histories[m + 1]? := by
      rw [List.getElem?_set, if_neg (by omega)]
    simp only [Nat.zero_add] at c1 c2
    rw [hsame] at c1 c2
    exact ⟨c1, c2⟩

/-- Any number of `step` calls changes neither the divisors, nor the number of
layers, nor the two input constants, nor the length of any history, and keeps
the tick counters in range. -/
theorem run_frame (eng : LayerEngine W C G F) (calls : List (StepCall C F))
    (h : Hierarchy W F) :
    (h.run eng calls)._ticksPerUpdate = h._ticksPerUpdate ∧
    (h.run eng calls)._layers.length = h._layers.length ∧
    (h.run eng calls)._inputTemporalHorizon = h._inputTemporalHorizon ∧
    (h.run eng calls)._numInputs = h._numInputs ∧
    (h.run eng calls)._histories.map List.length = h._histories.map List.length ∧
    (h.run eng calls)._ticks.length = h._ticks.length ∧
    (TicksInRange h._ticksPerUpdate h._ticks →
      TicksInRange h._ticksPerUpdate (h.run eng calls)._ticks) := by
  induction calls generalizing h with
  | nil => simp [Hierarchy.run]
  | cons c cs ih =>
    obtain ⟨i1, i2, i3, i4, i5⟩ := stepTrace_frame eng h c.inputs c.cs c.learn c.reward
    obtain ⟨j1, -⟩ := stepTrace_clock eng h c.inputs c.cs c.learn c.reward
    obtain ⟨k1, k2, k3, k4, k5, k6, k7⟩ :=
      ih (h.stepTrace eng c.inputs c.cs c.learn c.reward).1
    have hrun : h.run eng (c :: cs) =
        (h.stepTrace eng c.inputs c.cs c.learn c.reward).1.run eng cs := rfl
    rw [hrun]
    refine ⟨k1.trans i1, k2.trans i2, k3.trans i3, k4.trans i4, k5.trans i5, ?_, ?_⟩
    · rw [k6, j1, clock_length]
    · intro hin
      rw [i1] at k7
      apply k7
      rw [j1]
      exact clock_ticksInRange _ _ _ _ hin

end StepFacts

/-! ## `create` -/

section CreateFacts

variable {W C G F : Type}

theorem createLayers_length (eng : LayerEngine W C G F) (g : G) (sizes : List (Int × Int))
    (chunkSizes : List Int) (predict : List Bool) (descs : List (LayerDesc F)) :
    (createLayers eng g sizes chunkSizes predict descs).length = descs.length := by
  induction descs generalizing g sizes chunkSizes predict with
  | nil => rfl
  | cons d ds ih => simp [createLayers, ih]

theorem length_zeroHistory (th : Int) (below : List ((Int × Int) × Int)) :
    (zeroHistory th below).length = below.length * th.toNat := by
  unfold zeroHistory
  induction below with
  | nil => simp
  | cons b bs ih =>
    simp only [List.map_cons, List.flatten_cons, List.length_append, List.length_replicate,
      ih, List.length_cons]
    ring

theorem streamsOf_one (l : Nat) : streamsOf 1 l = 1 := by
  cases l <;> rfl

theorem initialHistories_getElem? (below : List ((Int × Int) × Int))
    (descs : List (LayerDesc F)) (l : Nat) (d : LayerDesc F) (hd : descs[l]? = some d) :
    ∃ hist, (initialHistories below descs)[l]? = some hist ∧
      hist.length = streamsOf below.length l * d._temporalHorizon.toNat := by
  induction descs generalizing below l with
  | nil => simp at hd
  | cons e es ih =>
    cases l with
    | zero =>
      simp only [List.getElem?_cons_zero, Option.some.injEq] at hd
      subst hd
      exact ⟨zeroHistory e._temporalHorizon below, by simp [initialHistories],
        by simp [length_zeroHistory, streamsOf]⟩
    | succ l =>
      simp only [List.getElem?_cons_succ] at hd
      obtain ⟨hist, h1, h2⟩ := ih [((e._width, e._height), e._chunkSize)] l hd
      refine ⟨hist, by simpa [initialHistories] using h1, ?_⟩
      rw [h2, List.length_singleton, streamsOf_one]
      rfl

variable [OfScientific F]

/-- The three outcomes of `create`, by its two checks. -/
theorem create_eq (eng : LayerEngine W C G F) (h : Hierarchy W F)
    (sizes : List (Int × Int)) (chunkSizes : List Int) (predict : List Bool)
    (descs : List (LayerDesc F)) (seed : Nat) :
    (¬ (sizes.length = chunkSizes.length ∧ chunkSizes.length = predict.length) →
      h.create eng sizes chunkSizes predict descs seed = (.error .mismatchedLengths, h)) ∧
    ((sizes.length = chunkSizes.length ∧ chunkSizes.length = predict.length) →
      (∃ d ∈ descs, d._temporalHorizon < d._ticksPerUpdate) →
      h.create eng sizes chunkSizes predict descs seed = (.error .horizonBelowTicks, h)) ∧
    ((sizes.length = chunkSizes.length ∧ chunkSizes.length = predict.length) →
      (∀ d ∈ descs, d._ticksPerUpdate ≤ d._temporalHorizon) →
      h.create eng sizes chunkSizes predict descs seed =
        (.ok (), Hierarchy.allocate eng sizes chunkSizes predict descs seed)) := by
  refine ⟨fun hne => ?_, fun heq hbad => ?_, fun heq hgood => ?_⟩
  · unfold Hierarchy.create
    rw [if_pos hne]
  · unfold Hierarchy.create
    rw [if_neg (not_not.mpr heq)]
    have hany : descs.any (fun d => decide (d._temporalHorizon < d._ticksPerUpdate)) = true := by
      obtain ⟨d, hd, hlt⟩ := hbad
      exact List.any_eq_true.mpr ⟨d, hd, by simpa using hlt⟩
    rw [if_pos hany]
  · unfold Hierarchy.create
    rw [if_neg (not_not.mpr heq)]
    have hany : ¬ descs.any (fun d => decide (d._temporalHorizon < d._ticksPerUpdate)) = true := by
      intro hc
      obtain ⟨d, hd, hlt⟩ := List.any_eq_true.mp hc
      have := hgood d hd
      simp only [decide_eq_true_eq] at hlt
      omega
    rw [if_neg hany]

/-- A successful `create` had arguments of equal lengths and built the allocated
state. -/
theorem create_ok (eng : LayerEngine W C G F) (h0 h : Hierarchy W F)
    (sizes : List (Int × Int)) (chunkSizes : List Int) (predict : List Bool)
    (descs : List (LayerDesc F)) (seed : Nat)
    (hc : h0.create eng sizes chunkSizes predict descs seed = (.ok (), h)) :
    (sizes.length = chunkSizes.length ∧ chunkSizes.length = predict.length) ∧
    h = Hierarchy.allocate eng sizes chunkSizes predict descs seed := by
  unfold Hierarchy.create at hc
  by_cases heq : sizes.length = chunkSizes.length ∧ chunkSizes.length = predict.length
  · rw [if_neg (not_not.mpr heq)] at hc
    split at hc
    · simp at hc
    · simp only [Prod.mk.injEq, true_and] at hc
      exact ⟨heq, hc.symm⟩
  · rw [if_pos heq] at hc
    simp at hc

theorem allocate_ticksInRange (eng : LayerEngine W C G F) (sizes : List (Int × Int))
    (chunkSizes : List Int) (predict : List Bool) (descs : List (LayerDesc F)) (seed : Nat) :
    TicksInRange (Hierarchy.allocate eng sizes chunkSizes predict descs seed)._ticksPerUpdate
      (Hierarchy.allocate eng sizes chunkSizes predict descs seed)._ticks := by
  intro j
  have h0 : (descs.map fun _ => (0 : Int)).getD j 0 = 0 := by
    rw [List.getD_eq_getElem?_getD, List.getElem?_map]
    cases descs[j]? <;> rfl
  simp only [Hierarchy.allocate, h0]
  exact ⟨le_refl 0, fun h1 => by omega⟩

/-- C2: `create(inputSizes, inputChunkSizes, predictInputs, layerDescs, seed)`
fails with a ConfigurationError whenever the lengths of `inputSizes`,
`inputChunkSizes` and `predictInputs` are not all equal, or some LayerDesc has
`temporalHorizon < ticksPerUpdate`, and then the hierarchy is left as it was;
otherwise it succeeds. -/
theorem create_fails_exactly_on_bad_configuration (eng : LayerEngine W C G F)
    (h : Hierarchy W F) (sizes : List (Int × Int)) (chunkSizes : List Int)
    (predict : List Bool) (descs : List (LayerDesc F)) (seed : Nat) :
    ((¬ (sizes.length = chunkSizes.length ∧ chunkSizes.length = predict.length) ∨
        ∃ d ∈ descs, d._temporalHorizon < d._ticksPerUpdate) →
      ∃ e : ConfigurationError,
        h.create eng sizes chunkSizes predict descs seed = (.error e, h)) ∧
    (¬ (¬ (sizes.length = chunkSizes.length ∧ chunkSizes.length = predict.length) ∨
        ∃ d ∈ descs, d._temporalHorizon < d._ticksPerUpdate) →
      ∃ h' : Hierarchy W F,
        h.create eng sizes chunkSizes predict descs seed = (.ok (), h')) := by
  obtain ⟨c1, c2, c3⟩ := create_eq eng h sizes chunkSizes predict descs seed
  constructor
  · intro hbad
    by_cases heq : sizes.length = chunkSizes.length ∧ chunkSizes.length = predict.length
    · rcases hbad with hne | hlt
      · exact absurd heq hne
      · exact ⟨.horizonBelowTicks, c2 heq hlt⟩
    · exact ⟨.mismatchedLengths, c1 heq⟩
  · intro hgood
    have heq : sizes.length = chunkSizes.length ∧ chunkSizes.length = predict.length := by
      by_contra hne
      exact hgood (Or.inl hne)
    refine ⟨_, c3 heq fun d hd => ?_⟩
    by_contra hlt
    exact hgood (Or.inr ⟨d, hd, not_le.mp hlt⟩)

theorem create_fails_exactly_on_bad_configuration_witness :
    (∃ e : ConfigurationError,
      sampleHierarchy.create unitEngine [(4, 4)] [2] [] [descWith 2 2] 0 =
        (.error e, sampleHierarchy)) ∧
    (∃ e : ConfigurationError,
      sampleHierarchy.create unitEngine [(4, 4)] [2] [true] [descWith 3 2] 0 =
        (.error e, sampleHierarchy)) ∧
    (∃ h' : Hierarchy Unit ℚ,
      sampleHierarchy.create unitEngine [(4, 4)] [2] [true] [descWith 2 2] 0 = (.ok (), h')) :=
  ⟨(create_fails_exactly_on_bad_configuration unitEngine sampleHierarchy [(4, 4)] [2] []
      [descWith 2 2] 0).1 (Or.inl (by decide)),
    (create_fails_exactly_on_bad_configuration unitEngine sampleHierarchy [(4, 4)] [2] [true]
      [descWith 3 2] 0).1 (Or.inr ⟨descWith 3 2, List.mem_singleton.mpr rfl, by decide⟩),
    (create_fails_exactly_on_bad_configuration unitEngine sampleHierarchy [(4, 4)] [2] [true]
      [descWith 2 2] 0).2 (by
        rintro (hne | ⟨d, hd, hlt⟩)
        · exact hne ⟨rfl, rfl⟩
        · rw [List.mem_singleton.mp hd] at hlt
          exact absurd hlt (by decide))⟩

/-- C6: a default-constructed LayerDesc satisfies the configuration invariants:
its `ticksPerUpdate` is at least 1 and its `temporalHorizon` is at least its
`ticksPerUpdate`; so `create` on a hierarchy built only from default LayerDescs
never fails for a violation of `temporalHorizon ≥ ticksPerUpdate`. -/
theorem default_layerDesc_satisfies_invariants :
    1 ≤ (LayerDesc.LayerDesc : LayerDesc F)._ticksPerUpdate ∧
    (LayerDesc.LayerDesc : LayerDesc F)._ticksPerUpdate ≤
      (LayerDesc.LayerDesc : LayerDesc F)._temporalHorizon ∧
    ∀ (eng : LayerEngine W C G F) (h : Hierarchy W F) (sizes : List (Int × Int))
      (chunkSizes : List Int) (predict : List Bool) (n seed : Nat),
      (h.create eng sizes chunkSizes predict (List.replicate n LayerDesc.LayerDesc) seed).1 ≠
        .error .horizonBelowTicks := by
  have h1 : (1 : Int) ≤ (LayerDesc.LayerDesc : LayerDesc F)._ticksPerUpdate := by
    show (1 : Int) ≤ 2
    decide
  have h2 : (LayerDesc.LayerDesc : LayerDesc F)._ticksPerUpdate ≤
      (LayerDesc.LayerDesc : LayerDesc F)._temporalHorizon := by
    show (2 : Int) ≤ 2
    decide
  refine ⟨h1, h2, ?_⟩
  intro eng h sizes chunkSizes predict n seed
  obtain ⟨c1, -, c3⟩ := create_eq eng h sizes chunkSizes predict
    (List.replicate n LayerDesc.LayerDesc) seed
  by_cases heq : sizes.length = chunkSizes.length ∧ chunkSizes.length = predict.length
  · rw [c3 heq]
    · simp
    · intro d hd
      rw [List.eq_of_mem_replicate hd]
      exact h2
  · rw [c1 heq]
    simp

end CreateFacts

/-! ## Reachable states -/

section Reachable

variable {W C G F : Type} [OfScientific F] [Div F] [Add F]

theorem subscript_natCast {α : Type} (v : List α) (l : Nat) :
    subscript v (l : Int) = v[l]? := by
  unfold subscript
  have : ¬ ((l : Int) < 0) := by omega
  rw [if_neg this]
  simp

theorem clock_two (r : Nat) (hr : r < 3) :
    clock 2 0 [1, 3] [0, (r : Int)] =
      ([0, (((r + 1) % 3 : Nat) : Int)], [true, decide (r = 2)]) := by
  interval_cases r <;> rfl

theorem run_ticks_two (eng : LayerEngine W C G F) (calls : List (StepCall C F))
    (h : Hierarchy W F) (r : Nat) (hr : r < 3) (htpu : h._ticksPerUpdate = [1, 3])
    (hlen : h._layers.length = 2) (hticks : h._ticks = [0, (r : Int)]) :
    (h.run eng calls)._ticks = [0, (((r + calls.length) % 3 : Nat) : Int)] := by
  induction calls generalizing h r with
  | nil =>
    simp only [Hierarchy.run, List.foldl_nil, List.length_nil, add_zero]
    rw [hticks, Nat.mod_eq_of_lt hr]
  | cons c cs ih =>
    obtain ⟨i1, i2, -⟩ := stepTrace_frame eng h c.inputs c.cs c.learn c.reward
    obtain ⟨j1, -⟩ := stepTrace_clock eng h c.inputs c.cs c.learn c.reward
    have hrun : h.run eng (c :: cs) =
        (h.stepTrace eng c.inputs c.cs c.learn c.reward).1.run eng cs := rfl
    rw [hrun, ih (h.stepTrace eng c.inputs c.cs c.learn c.reward).1 ((r + 1) % 3)
      (Nat.mod_lt _ (by decide)) (i1.trans htpu) (i2.trans hlen)
      (by rw [j1, hlen, htpu, hticks, clock_two r hr])]
    congr 2
    simp only [List.length_cons]
    have : ((r + 1) % 3 + cs.length) % 3 = (r + (cs.length + 1)) % 3 := by omega
    rw [this]

/-- C3: for a two-layer hierarchy with `ticksPerUpdate = [1, 3]`, starting from
the freshly created state, layer 1 is due during the `n`-th call of `step` if
and only if `n` is a positive multiple of 3, for every sequence of inputs,
learn flags and rewards. -/
theorem layer_one_due_every_third_step (eng : LayerEngine W C G F) (h0 h : Hierarchy W F)
    (sizes : List (Int × Int)) (chunkSizes : List Int) (predict : List Bool)
    (d0 d1 : LayerDesc F) (seed : Nat)
    (hc : h0.create eng sizes chunkSizes predict [d0, d1] seed = (.ok (), h))
    (ht0 : d0._ticksPerUpdate = 1) (ht1 : d1._ticksPerUpdate = 3)
    (calls : List (StepCall C F)) (n : Nat) (hn : 1 ≤ n) (hle : n ≤ calls.length) :
    h.dueDuring eng calls n 1 = true ↔ 3 ∣ n := by
  obtain ⟨-, rfl⟩ := create_ok eng h0 h sizes chunkSizes predict [d0, d1] seed hc
  obtain ⟨m, rfl⟩ : ∃ m, n = m + 1 := ⟨n - 1, by omega⟩
  have hm : m < calls.length := by omega
  have htpu : (Hierarchy.allocate eng sizes chunkSizes predict [d0, d1] seed)._ticksPerUpdate =
      [1, 3] := by
    simp [Hierarchy.allocate, ht0, ht1]
  have hlen : (Hierarchy.allocate eng sizes chunkSizes predict [d0, d1] seed)._layers.length =
      2 := by
    simp [Hierarchy.allocate, createLayers_length]
  have hticks : (Hierarchy.allocate eng sizes chunkSizes predict [d0, d1] seed)._ticks =
      [0, ((0 : Nat) : Int)] := by
    simp [Hierarchy.allocate]
  have hstate := run_ticks_two eng (calls.take m) _ 0 (by decide) htpu hlen hticks
  obtain ⟨f1, f2, -⟩ := run_frame eng (calls.take m)
    (Hierarchy.allocate eng sizes chunkSizes predict [d0, d1] seed)
  have htake : (calls.take m).length = m := by
    rw [List.length_take]; omega
  rw [htake, Nat.zero_add] at hstate
  simp only [Hierarchy.dueDuring, List.getElem?_eq_getElem hm]
  rw [(stepTrace_clock eng _ _ _ _ _).2, f1, f2, htpu, hlen, hstate,
    clock_two (m % 3) (Nat.mod_lt _ (by decide))]
  simp only [List.getD_eq_getElem?_getD, List.getElem?_cons_succ, List.getElem?_cons_zero,
    Option.getD_some, decide_eq_true_eq]
  omega

theorem layer_one_due_every_third_step_witness :
    ((Hierarchy.allocate unitEngine [(4, 4)] [2] [true] [descWith 1 2, descWith 3 3] 0
        : Hierarchy Unit ℚ).dueDuring unitEngine
        [sampleCall, sampleCall, sampleCall, sampleCall] 3 1 = true ↔ 3 ∣ 3) :=
  layer_one_due_every_third_step unitEngine sampleHierarchy _ [(4, 4)] [2] [true]
    (descWith 1 2) (descWith 3 3) 0
    ((create_eq unitEngine sampleHierarchy [(4, 4)] [2] [true]
      [descWith 1 2, descWith 3 3] 0).2.2 ⟨rfl, rfl⟩ (by
        intro d hd
        simp only [List.mem_cons, List.mem_singleton, List.not_mem_nil, or_false] at hd
        rcases hd with rfl | rfl <;> decide))
    rfl rfl [sampleCall, sampleCall, sampleCall, sampleCall] 3 (by decide) (by decide)

/-- C5: right after a successful `create` every tick counter is 0; and in every
state reachable from it by `step` calls, for every layer `l`,
`0 ≤ getTicks(l) < ticksPerUpdate[l]` (the LayerDescs satisfying the invariants
of the data model, `ticksPerUpdate ≥ 1` and `temporalHorizon ≥ ticksPerUpdate`). -/
theorem ticks_in_range_in_reachable_states (eng : LayerEngine W C G F)
    (h0 h : Hierarchy W F) (sizes : List (Int × Int)) (chunkSizes : List Int)
    (predict : List Bool) (descs : List (LayerDesc F)) (seed : Nat)
    (hc : h0.create eng sizes chunkSizes predict descs seed = (.ok (), h))
    (hv : ∀ d ∈ descs, d.Valid) :
    (∀ l : Nat, l < descs.length → h.getTicks (l : Int) = some 0) ∧
    (∀ (calls : List (StepCall C F)) (l : Nat) (d : LayerDesc F),
      descs[l]? = some d →
      ∃ t : Int, (h.run eng calls).getTicks (l : Int) = some t ∧
        0 ≤ t ∧ t < d._ticksPerUpdate) := by
  obtain ⟨-, rfl⟩ := create_ok eng h0 h sizes chunkSizes predict descs seed hc
  constructor
  · intro l hl
    simp [Hierarchy.getTicks, subscript_natCast, Hierarchy.allocate,
      List.getElem?_replicate, hl]
  · intro calls l d hd
    have hpos : 1 ≤ d._ticksPerUpdate := (hv d (List.getElem?_mem hd)).1
    obtain ⟨f1, -, -, -, -, f6, f7⟩ := run_frame eng calls
      (Hierarchy.allocate eng sizes chunkSizes predict descs seed)
    have hin := f7 (allocate_ticksInRange eng sizes chunkSizes predict descs seed) l
    have hl : l < descs.length := by
      by_contra hge
      rw [List.getElem?_eq_none (not_lt.mp hge)] at hd
      exact Option.noConfusion hd
    have hlt : l < ((Hierarchy.allocate eng sizes chunkSizes predict descs seed).run eng
        calls)._ticks.length := by
      rw [f6]; simpa [Hierarchy.allocate] using hl
    have htpu : (Hierarchy.allocate eng sizes chunkSizes predict descs seed)._ticksPerUpdate.getD
        l 0 = d._ticksPerUpdate := by
      simp [Hierarchy.allocate, List.getD_eq_getElem?_getD, hd]
    rw [htpu] at hin
    refine ⟨_, ?_, hin.1, hin.2 hpos⟩
    rw [Hierarchy.getTicks, subscript_natCast, List.getD_eq_getElem?_getD,
      List.getElem?_eq_getElem hlt]
    rfl

theorem ticks_in_range_in_reachable_states_witness :
    ∃ t : Int, ((Hierarchy.allocate unitEngine [(4, 4)] [2] [true]
        [descWith 1 2, descWith 3 3] 0 : Hierarchy Unit ℚ).run unitEngine
        [sampleCall, sampleCall]).getTicks ((1 : Nat) : Int) = some t ∧
      0 ≤ t ∧ t < (descWith 3 3)._ticksPerUpdate :=
  (ticks_in_range_in_reachable_states unitEngine sampleHierarchy _ [(4, 4)] [2] [true]
    [descWith 1 2, descWith 3 3] 0
    ((create_eq unitEngine sampleHierarchy [(4, 4)] [2] [true]
      [descWith 1 2, descWith 3 3] 0).2.2 ⟨rfl, rfl⟩ (by
        intro d hd
        simp only [List.mem_cons, List.mem_singleton, List.not_mem_nil, or_false] at hd
        rcases hd with rfl | rfl <;> decide))
    (by
      intro d hd
      simp only [List.mem_cons, List.mem_singleton, List.not_mem_nil, or_false] at hd
      rcases hd with rfl | rfl <;> exact ⟨by decide, by decide⟩)).2
    [sampleCall, sampleCall] 1 (descWith 3 3) rfl

theorem length_streamHistory (T s : Nat) (hist : List (List Int)) (n : Nat)
    (hlen : hist.length = n * T) (hs : s < n) : (streamHistory T s hist).length = T := by
  unfold streamHistory
  rw [List.length_take, List.length_drop, hlen]
  have h1 : (s + 1) * T ≤ n * T := Nat.mul_le_mul_right T hs
  have h2 : (s + 1) * T = s * T + T := by ring
  omega

/-- Pushing the inputs stream by stream pushes input `s` into the slice of
stream `s`. -/
theorem streamHistory_pushStreams (T : Nat) (inputs : List (List Int))
    (hist : List (List Int)) (hlen : hist.length = inputs.length * T) (s : Nat)
    (x : List Int) (hx : inputs[s]? = some x) :
    streamHistory T s (pushStreams T inputs hist) =
      pushHistory x (streamHistory T s hist) := by
  induction inputs generalizing hist s with
  | nil => simp at hx
  | cons y ys ih =>
    have hT : T ≤ hist.length := by
      rw [hlen, List.length_cons]
      exact Nat.le_mul_of_pos_left T (Nat.succ_pos _)
    have hA : (pushHistory y (hist.take T)).length = T := by
      rw [length_pushHistory, List.length_take]
      omega
    have hrest : (hist.drop T).length = ys.length * T := by
      rw [List.length_drop, hlen, List.length_cons, Nat.succ_mul]
      omega
    cases s with
    | zero =>
      simp only [List.getElem?_cons_zero, Option.some.injEq] at hx
      subst hx
      simp only [streamHistory, pushStreams, Nat.zero_mul, List.drop_zero]
      rw [List.take_left' hA]
    | succ s =>
      simp only [List.getElem?_cons_succ] at hx
      have hidx : (s + 1) * T = T + s * T := by ring
      have e1 : streamHistory T (s + 1) (pushStreams T (y :: ys) hist) =
          streamHistory T s (pushStreams T ys (hist.drop T)) := by
        have hdrop := @List.drop_append _ (pushHistory y (hist.take T))
          (pushStreams T ys (hist.drop T)) (s * T)
        rw [hA] at hdrop
        simp only [streamHistory, pushStreams]
        rw [hidx, hdrop]
      have e2 : streamHistory T (s + 1) hist = streamHistory T s (hist.drop T) := by
        simp only [streamHistory]
        rw [List.drop_drop, hidx]
      rw [e1, e2]
      exact ih (hist.drop T) hrest s hx

/-- In every state reached from a successful `create`, the history of layer `l`
holds `temporalHorizon[l]` (clamped at 0) entries for each of its streams, the
number of layers is that of the descriptors and `inputTemporalHorizon` is the
horizon of layer 0. -/
theorem reachable_shape (eng : LayerEngine W C G F) (h0 h : Hierarchy W F)
    (sizes : List (Int × Int)) (chunkSizes : List Int) (predict : List Bool)
    (descs : List (LayerDesc F)) (seed : Nat)
    (hc : h0.create eng sizes chunkSizes predict descs seed = (.ok (), h))
    (calls : List (StepCall C F)) :
    (h.run eng calls)._layers.length = descs.length ∧
    (∀ d0 : LayerDesc F, descs[0]? = some d0 →
      (h.run eng calls)._inputTemporalHorizon = d0._temporalHorizon) ∧
    (∀ (l : Nat) (d : LayerDesc F), descs[l]? = some d →
      ∃ hist : List (List Int), (h.run eng calls)._histories[l]? = some hist ∧
        hist.length = streamsOf sizes.length l * d._temporalHorizon.toNat) := by
  obtain ⟨⟨hl1, -⟩, rfl⟩ := create_ok eng h0 h sizes chunkSizes predict descs seed hc
  obtain ⟨-, f2, f3, -, f5, -⟩ := run_frame eng calls
    (Hierarchy.allocate eng sizes chunkSizes predict descs seed)
  refine ⟨?_, ?_, ?_⟩
  · rw [f2]
    simp [Hierarchy.allocate, createLayers_length]
  · intro d0 hd0
    rw [f3]
    simp [Hierarchy.allocate, List.head?_eq_getElem?, hd0]
  · intro l d hd
    obtain ⟨hist0, g1, g2⟩ := initialHistories_getElem? (sizes.zip chunkSizes) descs l d hd
    have hzip : (sizes.zip chunkSizes).length = sizes.length := by
      rw [List.length_zip]; omega
    rw [hzip] at g2
    have hmap := congrArg (fun ls => ls[l]?) f5
    simp only [List.getElem?_map] at hmap
    have g1' : (Hierarchy.allocate eng sizes chunkSizes predict descs seed)._histories[l]? =
        some hist0 := g1
    rw [g1'] at hmap
    cases hrun : ((Hierarchy.allocate eng sizes chunkSizes predict descs seed).run eng
        calls)._histories[l]? with
    | none => rw [hrun] at hmap; simp at hmap
    | some hist =>
      rw [hrun] at hmap
      simp only [Option.map_some', Option.some.injEq] at hmap
      exact ⟨hist, rfl, by rw [hmap, g2]⟩

/-- C4: for every layer `l`, after a successful `create` and after any number of
`step` calls, `getHistories(l)` holds exactly `temporalHorizon[l]` entries per
stream (the input streams for layer 0, one stream above), and `step` pushes one
entry and evicts the oldest, never growing or shrinking the history: a call
with one input per stream puts input `k` in front of the history of stream `k`
of layer 0 and drops its oldest entry; the history of layer `l + 1` is left as
it was when layer `l` is not due in the call, and gets the hidden code of layer
`l` in front, its oldest entry dropped, when layer `l` is due (the LayerDescs
satisfying the invariants of the data model, `ticksPerUpdate ≥ 1` and
`temporalHorizon ≥ ticksPerUpdate`). -/
theorem history_length_is_horizon (eng : LayerEngine W C G F) (h0 h : Hierarchy W F)
    (sizes : List (Int × Int)) (chunkSizes : List Int) (predict : List Bool)
    (descs : List (LayerDesc F)) (seed : Nat)
    (hc : h0.create eng sizes chunkSizes predict descs seed = (.ok (), h))
    (hv : ∀ d ∈ descs, d.Valid) (calls : List (StepCall C F)) :
    (∀ (l : Nat) (d : LayerDesc F), descs[l]? = some d →
      ∃ hist : List (List Int), (h.run eng calls).getHistories (l : Int) = some hist ∧
        (hist.length : Int) = (streamsOf sizes.length l : Int) * d._temporalHorizon ∧
        ∀ s : Nat, s < streamsOf sizes.length l →
          ((streamHistory d._temporalHorizon.toNat s hist).length : Int) =
            d._temporalHorizon) ∧
    (∀ (c : StepCall C F) (d0 : LayerDesc F) (k : Nat) (x : List Int),
      descs[0]? = some d0 → c.inputs.length = sizes.length → c.inputs[k]? = some x →
      ∃ before after : List (List Int),
        (h.run eng calls).getHistories ((0 : Nat) : Int) = some before ∧
        ((h.run eng calls).step eng c.inputs c.cs c.learn c.reward).2.getHistories
          ((0 : Nat) : Int) = some after ∧
        streamHistory d0._temporalHorizon.toNat k after =
          x :: (streamHistory d0._temporalHorizon.toNat k before).dropLast) ∧
    (∀ (c : StepCall C F) (l : Nat) (d : LayerDesc F), descs[l + 1]? = some d →
      ∃ before after : List (List Int),
        (h.run eng calls).getHistories ((l + 1 : Nat) : Int) = some before ∧
        ((h.run eng calls).step eng c.inputs c.cs c.learn c.reward).2.getHistories
          ((l + 1 : Nat) : Int) = some after ∧
        (((h.run eng calls).stepTrace eng c.inputs c.cs c.learn c.reward).2.getD l false =
            false → after = before) ∧
        (((h.run eng calls).stepTrace eng c.inputs c.cs c.learn c.reward).2.getD l false =
            true →
          ∃ layer : Layer W,
            ((h.run eng calls).step eng c.inputs c.cs c.learn c.reward).2.getLayer
              (l : Int) = some layer ∧
            after = layer.hiddenCode :: before.dropLast)) := by
  obtain ⟨s1, s2, s3⟩ := reachable_shape eng h0 h sizes chunkSizes predict descs seed hc calls
  have hcast : ∀ d ∈ descs, ((d._temporalHorizon.toNat : Nat) : Int) = d._temporalHorizon ∧
      1 ≤ d._temporalHorizon.toNat := by
    intro d hd
    obtain ⟨v1, v2⟩ := hv d hd
    have h0' : 0 ≤ d._temporalHorizon := by omega
    have := Int.toNat_of_nonneg h0'
    exact ⟨this, by omega⟩
  refine ⟨?_, ?_, ?_⟩
  · intro l d hd
    obtain ⟨hist, e1, e2⟩ := s3 l d hd
    obtain ⟨hcd, -⟩ := hcast d (List.getElem?_mem hd)
    refine ⟨hist, ?_, ?_, ?_⟩
    · rw [Hierarchy.getHistories, subscript_natCast, e1]
    · rw [e2, Nat.cast_mul, hcd]
    · intro s hs
      rw [length_streamHistory _ s hist _ e2 hs, hcd]
  · intro c d0 k x hd0 hin hx
    obtain ⟨before, e1, e2⟩ := s3 0 d0 hd0
    obtain ⟨-, hT⟩ := hcast d0 (List.getElem?_mem hd0)
    have hk : k < c.inputs.length := by
      by_contra hge
      rw [List.getElem?_eq_none (not_lt.mp hge)] at hx
      exact Option.noConfusion hx
    have e2' : before.length = c.inputs.length * d0._temporalHorizon.toNat := by
      rw [e2, hin]; rfl
    obtain ⟨t1, -⟩ := stepTrace_histories eng (h.run eng calls) c.inputs c.cs c.learn c.reward
    rw [e1, s2 d0 hd0] at t1
    refine ⟨before, pushStreams d0._temporalHorizon.toNat c.inputs before, ?_, ?_, ?_⟩
    · rw [Hierarchy.getHistories, subscript_natCast, e1]
    · rw [Hierarchy.getHistories, subscript_natCast]
      exact t1
    · rw [streamHistory_pushStreams _ c.inputs before e2' k x hx]
      have hne : streamHistory d0._temporalHorizon.toNat k before ≠ [] := by
        intro hnil
        have := length_streamHistory _ k before _ e2' hk
        rw [hnil] at this
        simp only [List.length_nil] at this
        omega
      exact List.dropLast_cons_of_ne_nil hne
  · intro c l d hd
    obtain ⟨before, e1, e2⟩ := s3 (l + 1) d hd
    obtain ⟨-, hT⟩ := hcast d (List.getElem?_mem hd)
    have hne : before ≠ [] := by
      intro hnil
      rw [hnil] at e2
      simp only [List.length_nil, streamsOf, Nat.one_mul] at e2
      omega
    have hl : l < (h.run eng calls)._layers.length := by
      rw [s1]
      by_contra hge
      rw [List.getElem?_eq_none (by omega)] at hd
      exact Option.noConfusion hd
    obtain ⟨-, t2⟩ := stepTrace_histories eng (h.run eng calls) c.inputs c.cs c.learn c.reward
    obtain ⟨u1, u2⟩ := t2 l hl
    rw [e1] at u1 u2
    cases hdue : ((h.run eng calls).stepTrace eng c.inputs c.cs c.learn c.reward).2.getD l false with
    | false =>
      refine ⟨before, before, ?_, ?_, fun _ => rfl, fun hf => absurd hf (by decide)⟩
      · rw [Hierarchy.getHistories, subscript_natCast, e1]
      · rw [Hierarchy.getHistories, subscript_natCast]
        exact u1 hdue
    | true =>
      obtain ⟨layer, w1, w2⟩ := u2 hdue
      refine ⟨before, pushHistory layer.hiddenCode before, ?_, ?_,
        fun hf => absurd hf (by decide), fun _ => ⟨layer, ?_, ?_⟩⟩
      · rw [Hierarchy.getHistories, subscript_natCast, e1]
      · rw [Hierarchy.getHistories, subscript_natCast]
        exact w2
      · rw [Hierarchy.getLayer, subscript_natCast]
        exact w1
      · exact List.dropLast_cons_of_ne_nil hne

theorem history_length_is_horizon_witness :
    (∃ hist : List (List Int),
      ((Hierarchy.allocate unitEngine [(4, 4), (2, 2)] [2, 1] [true, false]
        [descWith 1 2, descWith 3 3] 0 : Hierarchy Unit ℚ).run unitEngine
        [twoStreamCall, twoStreamCall, twoStreamCall]).getHistories ((0 : Nat) : Int) =
          some hist ∧
      (hist.length : Int) =
        (streamsOf [((4 : Int), (4 : Int)), (2, 2)].length 0 : Int) *
          (descWith 1 2)._temporalHorizon ∧
      ∀ s : Nat, s < streamsOf [((4 : Int), (4 : Int)), (2, 2)].length 0 →
        ((streamHistory (descWith 1 2)._temporalHorizon.toNat s hist).length : Int) =
          (descWith 1 2)._temporalHorizon) ∧
    (∃ before after : List (List Int),
      ((Hierarchy.allocate unitEngine [(4, 4), (2, 2)] [2, 1] [true, false]
        [descWith 1 2, descWith 3 3] 0 : Hierarchy Unit ℚ).run unitEngine
        [twoStreamCall, twoStreamCall, twoStreamCall]).getHistories ((0 : Nat) : Int) =
          some before ∧
      (((Hierarchy.allocate unitEngine [(4, 4), (2, 2)] [2, 1] [true, false]
        [descWith 1 2, descWith 3 3] 0 : Hierarchy Unit ℚ).run unitEngine
        [twoStreamCall, twoStreamCall, twoStreamCall]).step unitEngine twoStreamCall.inputs
          twoStreamCall.cs twoStreamCall.learn twoStreamCall.reward).2.getHistories
          ((0 : Nat) : Int) = some after ∧
      streamHistory (descWith 1 2)._temporalHorizon.toNat 1 after =
        [3, 2, 1, 0] :: (streamHistory (descWith 1 2)._temporalHorizon.toNat 1 before).dropLast) :=
  ⟨(history_length_is_horizon unitEngine sampleHierarchy _ [(4, 4), (2, 2)] [2, 1]
      [true, false] [descWith 1 2, descWith 3 3] 0
      ((create_eq unitEngine sampleHierarchy [(4, 4), (2, 2)] [2, 1] [true, false]
        [descWith 1 2, descWith 3 3] 0).2.2 ⟨rfl, rfl⟩ (by
          intro d hd
          simp only [List.mem_cons, List.mem_singleton, List.not_mem_nil, or_false] at hd
          rcases hd with rfl | rfl <;> decide))
      (by
        intro d hd
        simp only [List.mem_cons, List.mem_singleton, List.not_mem_nil, or_false] at hd
        rcases hd with rfl | rfl <;> exact ⟨by decide, by decide⟩)
      [twoStreamCall, twoStreamCall, twoStreamCall]).1 0 (descWith 1 2) rfl,
    (history_length_is_horizon unitEngine sampleHierarchy _ [(4, 4), (2, 2)] [2, 1]
      [true, false] [descWith 1 2, descWith 3 3] 0
      ((create_eq unitEngine sampleHierarchy [(4, 4), (2, 2)] [2, 1] [true, false]
        [descWith 1 2, descWith 3 3] 0).2.2 ⟨rfl, rfl⟩ (by
          intro d hd
          simp only [List.mem_cons, List.mem_singleton, List.not_mem_nil, or_false] at hd
          rcases hd with rfl | rfl <;> decide))
      (by
        intro d hd
        simp only [List.mem_cons, List.mem_singleton, List.not_mem_nil, or_false] at hd
        rcases hd with rfl | rfl <;> exact ⟨by decide, by decide⟩)
      [twoStreamCall, twoStreamCall, twoStreamCall]).2.1 twoStreamCall (descWith 1 2) 1
      [3, 2, 1, 0] rfl rfl rfl⟩

/-- C8: a call of `step` with only the inputs and the execution provider is the
call `step(inputs, provider, learn = true, reward = 0.0)`: the arguments left
out default to learning on and reward zero; and `step` hands back no value, its
only result is the hierarchy after the call. -/
theorem step_default_arguments (eng : LayerEngine W C G F) (h : Hierarchy W F)
    (inputs : List (List Int)) (cs : C) :
    h.stepCall eng (.two inputs cs) = h.step eng inputs cs true 0.0 ∧
    h.stepCall eng (.two inputs cs) = h.stepCall eng (.four inputs cs true 0.0) ∧
    (∀ learn : Bool, h.stepCall eng (.three inputs cs learn) =
      h.step eng inputs cs learn 0.0) ∧
    (∀ args : StepArgs C F, h.stepCall eng args =
      ((), (h.stepTrace eng args.resolve.inputs args.resolve.cs args.resolve.learn
        args.resolve.reward).1)) :=
  ⟨rfl, rfl, fun _ => rfl, fun _ => rfl⟩

end Reachable

end eogmaneo
